import Mathlib

/-!
Shallow embedding of the code-grouping compiler inside the function
icd_code_flags_snflk (src/file1.py).  Cell values are modelled as lists of
characters; every pandas column operation of the source is modelled
element-wise on lists of rows, in the order the source applies them
(lines 88, 94-95, 106, 112-113, 118, 130-134, 137-138, 153-155, 176-187).
-/

namespace IcdFlags

/-- Source spreadsheet row after the loader coerces cells to text: the
code_type cell, the raw code cell, and the description (category) cell
named by map_descr_var. -/
structure Row where
  code_type : List Char
  code : List Char
  descr : List Char
deriving DecidableEq, Repr

/-- Boolean substring test on character lists, modelling pandas
str.contains with a literal pattern. -/
def hasSubstr (pat : List Char) : List Char → Bool
  | [] => pat.isEmpty
  | c :: rest => pat.isPrefixOf (c :: rest) || hasSubstr pat rest

/-- Case-insensitive test for the substring ICD, modelling line 88's
str.contains with case=False, regex=False. -/
def containsICD (s : List Char) : Bool :=
  hasSubstr ['i', 'c', 'd'] (s.map Char.toLower)

/-- Code-type normalisation of lines 94-95: the nested np.where maps any
value containing 9 to 9, otherwise any value containing 10 to 10,
otherwise leaves the value unchanged. -/
def normalizeCT (ct : List Char) : List Char :=
  if hasSubstr ['9'] ct then ['9']
  else if hasSubstr ['1', '0'] ct then ['1', '0']
  else ct

/-- Space removal of line 106: str.replace of one space character by the
empty string removes every space (and only spaces). -/
def stripSpaces (s : List Char) : List Char :=
  s.filter (fun c => c != ' ')

/-- Python str.split on a single separator character (line 112): the list
of possibly empty segments between occurrences of the separator. -/
def splitOnChar (sep : Char) : List Char → List (List Char)
  | [] => [[]]
  | c :: rest =>
    if c = sep then [] :: splitOnChar sep rest
    else
      match splitOnChar sep rest with
      | [] => [[c]]
      | s :: ss => (c :: s) :: ss

/-- One exploded row of df_comor_codes after line 113: the owning row's
normalised code_type and description together with one comma-delimited
segment of the code cell (the code_array column). -/
structure Entry where
  code_type : List Char
  descr : List Char
  raw : List Char
deriving DecidableEq, Repr

/-- ICD-only row filter of line 88. -/
def icdRows (rows : List Row) : List Row :=
  rows.filter (fun r => containsICD r.code_type)

/-- Column rewrite of code_type by lines 94-95. -/
def normRows (rows : List Row) : List Row :=
  rows.map (fun r => { r with code_type := normalizeCT r.code_type })

/-- Explosion of one row into entries (lines 106, 112-113): spaces are
removed from the code cell, which is then split on commas; each segment
keeps the row's code_type and description. -/
def explodeRow (r : Row) : List Entry :=
  (splitOnChar ',' (stripSpaces r.code)).map (fun seg => ⟨r.code_type, r.descr, seg⟩)

/-- The exploded entry table df_comor_codes after line 113. -/
def entries (rows : List Row) : List Entry :=
  (normRows (icdRows rows)).flatMap explodeRow

/-- The code_range column of line 118: the raw segment itself when it
contains a hyphen, otherwise null. -/
def code_range (e : Entry) : Option (List Char) :=
  if e.raw.contains '-' then some e.raw else none

/-- Wildcard replacement of lines 130-131: every lowercase x becomes the
single-character match token. -/
def replaceWild (s : List Char) : List Char :=
  s.map (fun c => if c = 'x' then '.' else c)

/-- The code_regex column right after lines 130-131, before line 134
appends the suffix: defined exactly when the segment has no hyphen. -/
def code_regex0 (e : Entry) : Option (List Char) :=
  if e.raw.contains '-' then none else some (replaceWild e.raw)

/-- The code_regex column after line 134 appends the match-any suffix
to every non-null value. -/
def code_regex (e : Entry) : Option (List Char) :=
  (code_regex0 e).map (fun s => s ++ ['.', '*'])

/-- Grouping key of line 137: normalised code_type and description. -/
def entryKey (e : Entry) : List Char × List Char :=
  (e.code_type, e.descr)

/-- Entries whose code_regex is not null (the notna filter of line 137). -/
def patternEntries (es : List Entry) : List Entry :=
  es.filter (fun e => (code_regex e).isSome)

/-- Ordering pandas groupby uses on its keys (sort=True): lexicographic
on the pair, the component strings compared lexicographically. -/
def keyLe (a b : List Char × List Char) : Prop :=
  a.1 < b.1 ∨ (a.1 = b.1 ∧ a.2 ≤ b.2)

instance : DecidableRel keyLe := fun a b =>
  inferInstanceAs (Decidable (a.1 < b.1 ∨ (a.1 = b.1 ∧ a.2 ≤ b.2)))

instance : IsTotal (List Char × List Char) keyLe := by
  constructor
  intro a b
  rcases lt_trichotomy a.1 b.1 with h | h | h
  · exact Or.inl (Or.inl h)
  · rcases le_total a.2 b.2 with h2 | h2
    · exact Or.inl (Or.inr ⟨h, h2⟩)
    · exact Or.inr (Or.inr ⟨h.symm, h2⟩)
  · exact Or.inr (Or.inl h)

instance : IsTrans (List Char × List Char) keyLe := by
  constructor
  intro a b c hab hbc
  unfold keyLe at hab hbc ⊢
  rcases hab with h1 | ⟨h1, h1'⟩
  · rcases hbc with h2 | ⟨h2, h2'⟩
    · exact Or.inl (h1.trans h2)
    · exact Or.inl (h2 ▸ h1)
  · rcases hbc with h2 | ⟨h2, h2'⟩
    · exact Or.inl (h1 ▸ h2)
    · exact Or.inr ⟨h1.trans h2, h1'.trans h2'⟩

instance : IsAntisymm (List Char × List Char) keyLe := by
  constructor
  intro a b hab hba
  unfold keyLe at hab hba
  rcases hab with h1 | ⟨h1, h1'⟩
  · rcases hba with h2 | ⟨h2, h2'⟩
    · exact absurd (h1.trans h2) (lt_irrefl _)
    · exact absurd h1 (by rw [h2]; exact lt_irrefl _)
  · rcases hba with h2 | ⟨h2, h2'⟩
    · exact absurd h2 (by rw [h1]; exact lt_irrefl _)
    · exact Prod.ext h1 (le_antisymm h1' h2')

/-- One row of the grouped regex table df_regex_codes (lines 137-138). -/
structure PatternRule where
  code_type : List Char
  descr : List Char
  regex : List Char
deriving DecidableEq, Repr

/-- Join with the OR combinator (the apply of line 138). -/
def joinBar (l : List (List Char)) : List Char :=
  List.intercalate ['|'] l

/-- Grouped row for one key: the join, in source order, of the regexes of
the pattern entries carrying that key. -/
def mkPatternRule (pes : List Entry) (k : List Char × List Char) : PatternRule :=
  ⟨k.1, k.2, joinBar ((pes.filter (fun e => entryKey e = k)).map (fun e => (code_regex e).getD []))⟩

/-- The grouped regex table df_regex_codes (lines 137-138): pandas
groupby with default sort=True lists the distinct keys in ascending
order and joins each group's members in source row order. -/
def groupRegex (es : List Entry) : List PatternRule :=
  (List.insertionSort keyLe (((patternEntries es).map entryKey).dedup)).map
    (mkPatternRule (patternEntries es))

/-- One range rule as issued by lines 185-187 and the query of 190-199. -/
structure RangeRule where
  code_type : List Char
  descr : List Char
  low : List Char
  high : List Char
deriving DecidableEq, Repr

/-- Python str.ljust with a fill character: pad on the right up to the
requested width, leaving longer strings untouched. -/
def ljust (n : Nat) (c : Char) (s : List Char) : List Char :=
  s ++ List.replicate (n - s.length) c

/-- Range normalisation of lines 185-187: low is the piece before the
first hyphen, high the piece between the first and the second hyphen,
right-padded with Z to length 7. -/
def mkRangeRule (e : Entry) : RangeRule :=
  ⟨e.code_type, e.descr, (splitOnChar '-' e.raw).headD [],
    ljust 7 'Z' ((splitOnChar '-' e.raw).getD 1 [])⟩

/-- Entries with a non-null code_range (line 176). -/
def rangeEntries (es : List Entry) : List Entry :=
  es.filter (fun e => (code_range e).isSome)

/-- Range rules in source row order (lines 176-187). -/
def rangeRules (es : List Entry) : List RangeRule :=
  (rangeEntries es).map mkRangeRule

/-- The rule set handed to the warehouse: the pattern rules (one INSERT
per grouped regex row, lines 157-170) followed by the range rules
(lines 180-199). -/
structure RuleSet where
  patterns : List PatternRule
  ranges : List RangeRule
deriving DecidableEq, Repr

/-- Whole pipeline from spreadsheet rows to the rule set. -/
def compile (rows : List Row) : RuleSet :=
  ⟨groupRegex (entries rows), rangeRules (entries rows)⟩

/-- The two auxiliary dataframes returned at line 203. -/
def auxTables (rows : List Row) : List Entry × List PatternRule :=
  (entries rows, groupRegex (entries rows))

/-! Helper lemmas about the embedded primitives. -/

/-- Splitting never returns an empty list of segments. -/
theorem splitOnChar_ne_nil (sep : Char) (s : List Char) : splitOnChar sep s ≠ [] := by
  induction s with
  | nil => simp [splitOnChar]
  | cons a rest ih =>
    simp only [splitOnChar]
    by_cases ha : a = sep
    · simp [ha]
    · rw [if_neg ha]
      rcases h : splitOnChar sep rest with _ | ⟨s0, ss⟩
      · exact absurd h ih
      · simp

/-- On a string free of the separator, splitting returns the single
original segment. -/
theorem splitOnChar_eq_of_contains_false (sep : Char) (s : List Char)
    (h : s.contains sep = false) : splitOnChar sep s = [s] := by
  induction s with
  | nil => rfl
  | cons a rest ih =>
    rw [List.contains_cons] at h
    have h1 : ¬ a = sep := by
      intro hh
      subst hh
      simp at h
    have h2 : rest.contains sep = false := by
      rcases Bool.or_eq_false_iff.1 h with ⟨_, h2⟩
      exact h2
    simp only [splitOnChar]
    rw [if_neg h1, ih h2]

/-- Every character of every segment comes from the split string. -/
theorem mem_of_mem_splitOnChar (sep : Char) (s : List Char) :
    ∀ p ∈ splitOnChar sep s, ∀ c ∈ p, c ∈ s := by
  induction s with
  | nil =>
    intro p hp c hc
    simp [splitOnChar] at hp
    subst hp
    simp at hc
  | cons a rest ih =>
    intro p hp c hc
    simp only [splitOnChar] at hp
    by_cases ha : a = sep
    · rw [if_pos ha] at hp
      rcases List.mem_cons.1 hp with h | h
      · subst h; simp at hc
      · exact List.mem_cons_of_mem _ (ih p h c hc)
    · rw [if_neg ha] at hp
      rcases hsr : splitOnChar sep rest with _ | ⟨s0, ss⟩
      · exact absurd hsr (splitOnChar_ne_nil sep rest)
      · rw [hsr] at hp
        rcases List.mem_cons.1 hp with h | h
        · subst h
          rcases List.mem_cons.1 hc with h' | h'
          · rw [h']; exact List.mem_cons_self a rest
          · exact List.mem_cons_of_mem _
              (ih s0 (hsr ▸ List.mem_cons_self s0 ss) c h')
        · exact List.mem_cons_of_mem _
            (ih p (hsr ▸ List.mem_cons_of_mem s0 h) c hc)

/-- A split producing at least two segments came from a string that does
contain the separator. -/
theorem contains_of_splitOnChar_cons_cons (sep : Char) (s : List Char)
    (p q : List Char) (rs : List (List Char))
    (h : splitOnChar sep s = p :: q :: rs) : s.contains sep = true := by
  by_contra hc
  have hc' : s.contains sep = false := by
    cases hcc : s.contains sep
    · rfl
    · exact absurd hcc hc
  rw [splitOnChar_eq_of_contains_false sep s hc'] at h
  exact absurd (congrArg List.length h) (by simp)

/-- Wildcard replacement introduces no lowercase x. -/
theorem not_mem_x_replaceWild (s : List Char) : 'x' ∉ replaceWild s := by
  intro hx
  rcases List.mem_map.1 hx with ⟨c, _, hc⟩
  by_cases h : c = 'x'
  · rw [if_pos h] at hc
    exact absurd hc (by decide)
  · rw [if_neg h] at hc
    exact absurd hc h

/-- Wildcard replacement leaves every uppercase X alone: the count of X
is preserved. -/
theorem count_X_replaceWild (s : List Char) :
    (replaceWild s).count 'X' = s.count 'X' := by
  induction s with
  | nil => rfl
  | cons c cs ih =>
    show ((if c = 'x' then '.' else c) :: replaceWild cs).count 'X' = (c :: cs).count 'X'
    rw [List.count_cons, List.count_cons, ih]
    by_cases hc : c = 'x'
    · subst hc; simp
    · rw [if_neg hc]

/-- Keys of the grouped table are exactly the sorted distinct entry keys. -/
theorem groupRegex_map_key (es : List Entry) :
    (groupRegex es).map (fun r => (r.code_type, r.descr)) =
      List.insertionSort keyLe (((patternEntries es).map entryKey).dedup) := by
  unfold groupRegex
  rw [List.map_map]
  have h : ((fun r : PatternRule => (r.code_type, r.descr)) ∘
      mkPatternRule (patternEntries es)) = id := by
    funext k
    rfl
  rw [h, List.map_id]

/-! Claim theorems. -/

/-- C2: every atomic entry is classified as exactly one of RANGE (code_range
set) and PATTERN (code_regex set), and it is RANGE exactly when its raw
segment contains a hyphen character. -/
theorem C2_entry_classification (e : Entry) :
    (code_range e).isSome = e.raw.contains '-' ∧
    (code_regex e).isSome = !(code_range e).isSome := by
  unfold code_range code_regex code_regex0
  cases h : e.raw.contains '-' <;> simp [h]

/-- C3: for a PATTERN entry (no hyphen in the raw segment) the compiled
expression is the raw string with every lowercase x replaced by the dot
token and the match-any suffix appended; no lowercase x remains, the
expression ends in the suffix, and uppercase X is untouched (its count is
preserved). -/
theorem C3_pattern_expression (e : Entry) (h : e.raw.contains '-' = false) :
    code_regex e = some (replaceWild e.raw ++ ['.', '*']) ∧
    'x' ∉ replaceWild e.raw ++ ['.', '*'] ∧
    ['.', '*'] <:+ replaceWild e.raw ++ ['.', '*'] ∧
    (replaceWild e.raw ++ ['.', '*']).count 'X' = e.raw.count 'X' := by
  refine ⟨?_, ?_, ?_, ?_⟩
  · unfold code_regex code_regex0
    rw [h]
    rfl
  · intro hx
    rcases List.mem_append.1 hx with h1 | h1
    · exact not_mem_x_replaceWild e.raw h1
    · exact absurd h1 (by decide)
  · exact List.suffix_append _ _
  · rw [List.count_append, count_X_replaceWild]
    have h0 : (['.', '*'] : List Char).count 'X' = 0 := by decide
    rw [h0]
    omega

/-- Witness for C3 at the entry with raw segment 25x. -/
theorem C3_pattern_expression_witness :
    code_regex ⟨['9'], ['D'], ['2', '5', 'x']⟩ = some ['2', '5', '.', '.', '*'] := by
  have h := C3_pattern_expression ⟨['9'], ['D'], ['2', '5', 'x']⟩ (by decide)
  rw [h.1]
  decide

/-- C4: a RANGE entry splitting into exactly two parts yields a range rule
whose low is the left part verbatim and whose high is the right part padded
on the right with Z to a total length of 7 (used unpadded when already at
least 7 characters); the high's length is the maximum of 7 and the right
part's length. -/
theorem C4_range_normalisation (es : List Entry) (e : Entry) (p₁ p₂ : List Char)
    (hmem : e ∈ es) (hsplit : splitOnChar '-' e.raw = [p₁, p₂]) :
    mkRangeRule e ∈ rangeRules es ∧
    (mkRangeRule e).low = p₁ ∧
    (mkRangeRule e).high = p₂ ++ List.replicate (7 - p₂.length) 'Z' ∧
    (mkRangeRule e).high.length = max 7 p₂.length ∧
    (7 ≤ p₂.length → (mkRangeRule e).high = p₂) := by
  have hcont : e.raw.contains '-' = true :=
    contains_of_splitOnChar_cons_cons '-' e.raw p₁ p₂ [] hsplit
  have hlow : (mkRangeRule e).low = p₁ := by
    unfold mkRangeRule
    rw [hsplit]
    rfl
  have hhigh : (mkRangeRule e).high = p₂ ++ List.replicate (7 - p₂.length) 'Z' := by
    unfold mkRangeRule ljust
    rw [hsplit]
    rfl
  have hmem2 : mkRangeRule e ∈ rangeRules es := by
    unfold rangeRules rangeEntries
    refine List.mem_map_of_mem _ (List.mem_filter.2 ⟨hmem, ?_⟩)
    show (code_range e).isSome = true
    unfold code_range
    rw [hcont]
    rfl
  have hlen : (mkRangeRule e).high.length = max 7 p₂.length := by
    rw [hhigh, List.length_append, List.length_replicate]
    omega
  refine ⟨hmem2, hlow, hhigh, hlen, ?_⟩
  intro h7
  rw [hhigh, Nat.sub_eq_zero_of_le h7]
  simp

/-- Witness for C4 at the range 250.1-250.3, whose high pads to 250.3ZZ. -/
theorem C4_range_normalisation_witness :
    mkRangeRule ⟨['9'], ['D'], "250.1-250.3".toList⟩ ∈
      rangeRules [⟨['9'], ['D'], "250.1-250.3".toList⟩] ∧
    (mkRangeRule ⟨['9'], ['D'], "250.1-250.3".toList⟩).low = "250.1".toList ∧
    (mkRangeRule ⟨['9'], ['D'], "250.1-250.3".toList⟩).high = "250.3ZZ".toList := by
  have h := C4_range_normalisation [⟨['9'], ['D'], "250.1-250.3".toList⟩]
      ⟨['9'], ['D'], "250.1-250.3".toList⟩ "250.1".toList "250.3".toList
      (List.mem_singleton.2 rfl) (by decide)
  exact ⟨h.1, h.2.1, by rw [h.2.2.1]; decide⟩

/-- C9: the pipeline is a pure function of its input: recompiling the same
rows yields the identical rule set and identical auxiliary tables, with no
hidden state between runs. -/
theorem C9_deterministic (rows : List Row) :
    compile rows = compile rows ∧ auxTables rows = auxTables rows :=
  ⟨rfl, rfl⟩

/-- C1 counterexample: for the raw range 100--105 (three hyphen-delimited
parts) the pipeline signals no error and the rule set does not omit the
entry: a range rule with low 100 and high ZZZZZZZ is emitted. -/
theorem C1_counterexample :
    (compile [⟨"ICD-9".toList, "100--105".toList, ['D']⟩]).ranges =
      [⟨['9'], ['D'], "100".toList, "ZZZZZZZ".toList⟩] := by
  decide

/-- C1 amended: a RANGE entry whose raw string splits into more than two
hyphen-delimited parts is neither rejected nor omitted: no error is
signalled anywhere, a range rule is emitted for it with low the part before
the first hyphen and high the part between the first and second hyphens
padded with Z to length 7, and other entries are unaffected. -/
theorem C1_malformed_range (es : List Entry) (e : Entry) (p₁ p₂ p₃ : List Char)
    (ps : List (List Char)) (hmem : e ∈ es)
    (hsplit : splitOnChar '-' e.raw = p₁ :: p₂ :: p₃ :: ps) :
    mkRangeRule e ∈ rangeRules es ∧
    (mkRangeRule e).low = p₁ ∧
    (mkRangeRule e).high = ljust 7 'Z' p₂ := by
  have hcont : e.raw.contains '-' = true :=
    contains_of_splitOnChar_cons_cons '-' e.raw p₁ p₂ (p₃ :: ps) hsplit
  refine ⟨?_, ?_, ?_⟩
  · unfold rangeRules rangeEntries
    refine List.mem_map_of_mem _ (List.mem_filter.2 ⟨hmem, ?_⟩)
    show (code_range e).isSome = true
    unfold code_range
    rw [hcont]
    rfl
  · unfold mkRangeRule
    rw [hsplit]
    rfl
  · unfold mkRangeRule
    rw [hsplit]
    rfl

/-- Witness for the amended C1 at the raw code 100--105. -/
theorem C1_malformed_range_witness :
    mkRangeRule ⟨['9'], ['D'], "100--105".toList⟩ ∈
      rangeRules [⟨['9'], ['D'], "100--105".toList⟩] ∧
    (mkRangeRule ⟨['9'], ['D'], "100--105".toList⟩).low = "100".toList ∧
    (mkRangeRule ⟨['9'], ['D'], "100--105".toList⟩).high = "ZZZZZZZ".toList := by
  have h := C1_malformed_range [⟨['9'], ['D'], "100--105".toList⟩]
      ⟨['9'], ['D'], "100--105".toList⟩ "100".toList [] "105".toList []
      (List.mem_singleton.2 rfl) (by decide)
  exact ⟨h.1, h.2.1, by rw [h.2.2]; decide⟩

/-- C6: every entry the pipeline produces takes its code_type from its
owning row by the once-per-row rule: a code_type containing 9 becomes 9
(this test takes precedence), otherwise one containing 10 becomes 10,
otherwise the code_type text is kept verbatim. -/
theorem C6_codetype_normalisation (rows : List Row) (e : Entry)
    (h : e ∈ entries rows) :
    ∃ r ∈ rows,
      e.code_type =
        (if hasSubstr ['9'] r.code_type then ['9']
         else if hasSubstr ['1', '0'] r.code_type then ['1', '0']
         else r.code_type) ∧
      e.descr = r.descr := by
  unfold entries normRows icdRows explodeRow at h
  rcases List.mem_flatMap.1 h with ⟨r', hr', he⟩
  rcases List.mem_map.1 hr' with ⟨r, hr, rfl⟩
  rcases List.mem_map.1 he with ⟨seg, hseg, rfl⟩
  exact ⟨r, (List.mem_filter.1 hr).1, rfl, rfl⟩

/-- Witness for C6 on a row whose code_type mentions both 9 and 10: the
9 test wins. -/
theorem C6_codetype_normalisation_witness :
    ∃ r ∈ [(⟨"icd910".toList, ['1'], ['D']⟩ : Row)],
      (⟨['9'], ['D'], ['1']⟩ : Entry).code_type =
        (if hasSubstr ['9'] r.code_type then ['9']
         else if hasSubstr ['1', '0'] r.code_type then ['1', '0']
         else r.code_type) ∧
      (⟨['9'], ['D'], ['1']⟩ : Entry).descr = r.descr :=
  C6_codetype_normalisation [⟨"icd910".toList, ['1'], ['D']⟩]
    ⟨['9'], ['D'], ['1']⟩ (by decide)

/-- C7: a row is retained exactly when its code_type contains the substring
ICD case-insensitively; excluded rows are dropped silently (no error value
exists) and contribute nothing: compiling the pre-filtered rows gives the
same rule set and the same auxiliary tables. -/
theorem C7_icd_filter (rows : List Row) :
    (∀ r, r ∈ icdRows rows ↔ r ∈ rows ∧ containsICD r.code_type = true) ∧
    compile (icdRows rows) = compile rows ∧
    auxTables (icdRows rows) = auxTables rows := by
  have hidem : icdRows (icdRows rows) = icdRows rows := by
    unfold icdRows
    rw [List.filter_filter]
    simp
  have hent : entries (icdRows rows) = entries rows := by
    unfold entries
    rw [hidem]
  refine ⟨?_, ?_, ?_⟩
  · intro r
    exact List.mem_filter
  · unfold compile
    rw [hent]
  · unfold auxTables
    rw [hent]

/-- C8 counterexample: a tab is a whitespace character, yet a code cell
containing a tab keeps it after cleaning: only spaces are removed, so the
claim that all whitespace characters are stripped fails. -/
theorem C8_counterexample :
    ('\t').isWhitespace = true ∧
    ∃ e, e ∈ entries [⟨"ICD9".toList, ['4', '\t', '1'], ['D']⟩] ∧ '\t' ∈ e.raw := by
  constructor
  · decide
  · exact ⟨⟨['9'], ['D'], ['4', '\t', '1']⟩, by decide, by decide⟩

/-- C8 amended: every space character (and only spaces; other whitespace
is retained) is removed from the whole cell before the comma split, and
empty segments from doubled commas survive as empty PATTERN entries whose
expression is just the match-any suffix. -/
theorem C8_space_stripping (rows : List Row) (e : Entry) (h : e ∈ entries rows) :
    ' ' ∉ e.raw ∧
    (e.raw = [] → code_range e = none ∧ code_regex e = some ['.', '*']) := by
  constructor
  · unfold entries normRows icdRows explodeRow at h
    rcases List.mem_flatMap.1 h with ⟨r', hr', he⟩
    rcases List.mem_map.1 he with ⟨seg, hseg, rfl⟩
    intro hsp
    have hm := mem_of_mem_splitOnChar ',' (stripSpaces r'.code) seg hseg ' ' hsp
    unfold stripSpaces at hm
    rcases List.mem_filter.1 hm with ⟨_, hbad⟩
    simp at hbad
  · intro hnil
    constructor
    · unfold code_range
      rw [hnil]
      rfl
    · unfold code_regex code_regex0
      rw [hnil]
      rfl

/-- Witness for the amended C8 on a cell with an embedded space and a
doubled comma. -/
theorem C8_space_stripping_witness :
    ' ' ∉ (⟨['9'], ['D'], []⟩ : Entry).raw ∧
    ((⟨['9'], ['D'], []⟩ : Entry).raw = [] →
      code_range ⟨['9'], ['D'], []⟩ = none ∧
      code_regex ⟨['9'], ['D'], []⟩ = some ['.', '*']) :=
  C8_space_stripping [⟨"ICD9".toList, "4 1,,5".toList, ['D']⟩]
    ⟨['9'], ['D'], []⟩ (by decide)

/-- C5: the rule set carries exactly one pattern rule per distinct
(code_type, category) key, every pattern entry's key owns a rule, and each
rule's expression is the OR-join, in source row order, of exactly the
member expressions sharing its key. -/
theorem C5_pattern_grouping (rows : List Row) :
    ((compile rows).patterns.map (fun r => (r.code_type, r.descr))).Nodup ∧
    (∀ e ∈ patternEntries (entries rows),
      ∃ r ∈ (compile rows).patterns, (r.code_type, r.descr) = entryKey e) ∧
    (∀ r ∈ (compile rows).patterns,
      r.regex = joinBar (((patternEntries (entries rows)).filter
        (fun e => entryKey e = (r.code_type, r.descr))).map
          (fun e => (code_regex e).getD []))) := by
  have hpat : (compile rows).patterns = groupRegex (entries rows) := rfl
  refine ⟨?_, ?_, ?_⟩
  · rw [hpat, groupRegex_map_key]
    exact (List.perm_insertionSort keyLe _).nodup_iff.2 (List.nodup_dedup _)
  · intro e he
    have hmem : mkPatternRule (patternEntries (entries rows)) (entryKey e) ∈
        groupRegex (entries rows) := by
      unfold groupRegex
      exact List.mem_map_of_mem _
        ((List.mem_insertionSort keyLe).2
          (List.mem_dedup.2 (List.mem_map_of_mem entryKey he)))
    exact ⟨mkPatternRule (patternEntries (entries rows)) (entryKey e),
      hpat ▸ hmem, rfl⟩
  · intro r hr
    rw [hpat] at hr
    unfold groupRegex at hr
    rcases List.mem_map.1 hr with ⟨k, hk, rfl⟩
    rfl

/-- Witness for C5 on the two-row hypertension example: the second row's
entry shares the first row's rule key. -/
theorem C5_pattern_grouping_witness :
    ∃ r ∈ (compile [⟨"ICD10".toList, "I10".toList, ['H']⟩,
        ⟨"ICD10".toList, "I11x".toList, ['H']⟩]).patterns,
      (r.code_type, r.descr) = entryKey ⟨['1', '0'], ['H'], "I11x".toList⟩ :=
  (C5_pattern_grouping [⟨"ICD10".toList, "I10".toList, ['H']⟩,
      ⟨"ICD10".toList, "I11x".toList, ['H']⟩]).2.1
    ⟨['1', '0'], ['H'], "I11x".toList⟩ (by decide)

/-- C10: pattern rules are emitted in ascending lexicographic order of
their (code_type, category) key, so the emitted key sequence depends only
on the collection of entry keys and not on the order in which those keys
first appear in the source rows. -/
theorem C10_sorted_pattern_keys (rows₁ rows₂ : List Row)
    (hperm : ((patternEntries (entries rows₁)).map entryKey).Perm
      ((patternEntries (entries rows₂)).map entryKey)) :
    List.Sorted keyLe ((compile rows₁).patterns.map (fun r => (r.code_type, r.descr))) ∧
    (compile rows₁).patterns.map (fun r => (r.code_type, r.descr)) =
      (compile rows₂).patterns.map (fun r => (r.code_type, r.descr)) := by
  have e1 : (compile rows₁).patterns = groupRegex (entries rows₁) := rfl
  have e2 : (compile rows₂).patterns = groupRegex (entries rows₂) := rfl
  constructor
  · rw [e1, groupRegex_map_key]
    exact List.sorted_insertionSort keyLe _
  · rw [e1, e2, groupRegex_map_key, groupRegex_map_key]
    refine List.eq_of_perm_of_sorted ?_ (List.sorted_insertionSort keyLe _)
      (List.sorted_insertionSort keyLe _)
    exact ((List.perm_insertionSort keyLe _).trans hperm.dedup).trans
      (List.perm_insertionSort keyLe _).symm

/-- Witness for C10: two row lists presenting the same keys in opposite
first-appearance order produce the same emitted key sequence. -/
theorem C10_sorted_pattern_keys_witness :
    (compile [⟨"ICD9".toList, ['1'], ['B']⟩,
        ⟨"ICD9".toList, ['2'], ['A']⟩]).patterns.map
      (fun r => (r.code_type, r.descr)) =
    (compile [⟨"ICD9".toList, ['2'], ['A']⟩,
        ⟨"ICD9".toList, ['1'], ['B']⟩]).patterns.map
      (fun r => (r.code_type, r.descr)) :=
  (C10_sorted_pattern_keys
    [⟨"ICD9".toList, ['1'], ['B']⟩, ⟨"ICD9".toList, ['2'], ['A']⟩]
    [⟨"ICD9".toList, ['2'], ['A']⟩, ⟨"ICD9".toList, ['1'], ['B']⟩]
    (by decide)).2

end IcdFlags
